import Mathlib

/-!
Verification of the title-extraction engine (`pdftitle.py`) of the autobib
repository.  Python strings are modelled as `List Char`, Python floats as
exact rationals `ℚ` (the heuristic thresholds are decimal literals, exact
in `ℚ`), and the two external collaborators (the PDF metadata reader and
the layout parser) as explicit parameters at the tier boundary.  All
definitions are translated directly from the source; the anchored regular
expressions of `junk_line` and the substitution patterns of `sanitize`
are implemented as executable matchers with the same semantics on the
(stripped) inputs they are applied to.
-/

/-- Python whitespace set used by `str.strip()` and by the regex class `\s`
(Python 2 byte strings): space, tab, newline, carriage return, vertical tab,
form feed. -/
def isWs (c : Char) : Bool :=
  decide (c = ' ') || decide (c = '\t') || decide (c = '\n') ||
  decide (c = '\r') || decide (c = '\x0b') || decide (c = '\x0c')

/-- Python `str.strip()`: drop leading and trailing whitespace. -/
def pyStrip (l : List Char) : List Char :=
  ((l.dropWhile isWs).reverse.dropWhile isWs).reverse

/-- Source `empty_str(s)`: `len(s.strip()) == 0`. -/
def empty_str (s : List Char) : Bool :=
  decide ((pyStrip s).length = 0)

/-- ASCII letter test, `string.ascii_letters` membership. -/
def isAsciiLetter (c : Char) : Bool :=
  decide ('a' ≤ c ∧ c ≤ 'z') || decide ('A' ≤ c ∧ c ≤ 'Z')

/-- ASCII digit test, `string.digits` membership. -/
def isAsciiDigit (c : Char) : Bool :=
  decide ('0' ≤ c ∧ c ≤ '9')

/-- Python 2 `str.lower()` on byte strings: lowercase ASCII letters only. -/
def asciiLower (c : Char) : Char :=
  if decide ('A' ≤ c ∧ c ≤ 'Z') then Char.ofNat (c.toNat + 32) else c

/-- Literal-prefix matcher: does the pattern `p` occur at the head of `l`? -/
def begMatch : List Char → List Char → Bool
  | [], _ => true
  | _ :: _, [] => false
  | a :: p, b :: l => decide (a = b) && begMatch p l

/-- Matcher for a sequence of literals separated by `\s+` (one or more
whitespace characters), anchored at the head of the input.  Because every
literal of `junk_line`'s patterns begins with a non-whitespace character,
greedily consuming the whole whitespace run is equivalent to the regex
backtracking semantics. -/
def matchParts : List (List Char) → List Char → Bool
  | [], _ => true
  | [p], l => begMatch p l
  | p :: ps, l =>
    begMatch p l &&
      (match l.drop p.length with
       | [] => false
       | c :: r => isWs c && matchParts ps (r.dropWhile isWs))

/-- Unanchored search (`re.search`) for a `\s+`-separated literal sequence. -/
def searchParts (parts : List (List Char)) : List Char → Bool
  | [] => matchParts parts []
  | a :: r => matchParts parts (a :: r) || searchParts parts r

/-- Matcher for `.*conference` at the head of the input: any run of
non-newline characters followed by the literal. -/
def confGap : List Char → Bool
  | [] => false
  | a :: r => begMatch (String.toList "conference") (a :: r) ||
      (decide (a ≠ '\n') && confGap r)

/-- Unanchored search for `(integrated|international).*conference`. -/
def searchConf : List Char → Bool
  | [] => false
  | a :: r =>
    (begMatch (String.toList "integrated") (a :: r) && confGap ((a :: r).drop 10)) ||
    (begMatch (String.toList "international") (a :: r) && confGap ((a :: r).drop 13)) ||
    searchConf r

/-- Source `junk_line`'s copyright/boilerplate regex, applied to the
lowercased line:
`paper\s+title|technical\s+report|proceedings|preprint|to\s+appear|submission|(integrated|international).*conference|transactions\s+on|symposium\s+on|downloaded\s+from\s+http`. -/
def is_copyright (l : List Char) : Bool :=
  searchParts [String.toList "paper", String.toList "title"] l ||
  searchParts [String.toList "technical", String.toList "report"] l ||
  searchParts [String.toList "proceedings"] l ||
  searchParts [String.toList "preprint"] l ||
  searchParts [String.toList "to", String.toList "appear"] l ||
  searchParts [String.toList "submission"] l ||
  searchConf l ||
  searchParts [String.toList "transactions", String.toList "on"] l ||
  searchParts [String.toList "symposium", String.toList "on"] l ||
  searchParts [String.toList "downloaded", String.toList "from", String.toList "http"] l

/-- First alternative of the placeholder regex,
`^[0-9 \t-]+(abstract|introduction)?\s+$`, as a full match of the (already
stripped) input: a nonempty block of digits/spaces/tabs/dashes, an optional
keyword, then one or more trailing whitespace characters.  Since `\s`
includes the newline, a match ending just before a final newline (Python's
`$`) exists exactly when a match to the very end exists, so the plain
end-of-string anchor below is equivalent. -/
def phAlt1 (l : List Char) : Bool :=
  (List.range (l.length + 1)).any (fun i =>
    decide (0 < i) &&
    ((l.take i).all (fun c =>
      isAsciiDigit c || decide (c = ' ') || decide (c = '\t') || decide (c = '-'))) &&
    (([[], String.toList "abstract", String.toList "introduction"]).any (fun m =>
      begMatch m (l.drop i) &&
      (decide (0 < ((l.drop i).drop m.length).length) &&
        ((l.drop i).drop m.length).all isWs))))

/-- Second alternative of the placeholder regex,
`^(abstract|unknown|title|untitled):?$`, as a full match of the stripped
input. -/
def phAlt2 (l : List Char) : Bool :=
  ([String.toList "abstract", String.toList "unknown",
    String.toList "title", String.toList "untitled"]).any (fun w =>
    decide (l = w) || decide (l = w ++ [':']))

/-- Source `junk_line(line)`: a line is unsuitable as a title if it is too
short, is a placeholder, looks like copyright/venue boilerplate, or is a
"serial number".  The serial-number comparison `ascii_length <
chars_length / 2` is Python 2 integer (floor) division, modelled by `Nat`
division. -/
def junk_line (line : List Char) : Bool :=
  let s := pyStrip line
  let too_small := decide (s.length < 6)
  let isPlaceholderText := phAlt1 (s.map asciiLower) || phAlt2 (s.map asciiLower)
  let isCopyrightInfo := is_copyright (line.map asciiLower)
  let asciiLength := (s.filter isAsciiLetter).length
  let charsLength := (s.filter (fun c =>
    !(decide (c = ' ') || decide (c = '\t') || decide (c = '\n')))).length
  let isSerialNumber := decide (asciiLength < charsLength / 2)
  too_small || isPlaceholderText || isCopyrightInfo || isSerialNumber

/-- Python `os.path.basename`: the part of the path after the last slash. -/
def basenameOf (p : List Char) : List Char :=
  (p.reverse.takeWhile (fun c => decide (c ≠ '/'))).reverse

/-- Extension part of Python `os.path.splitext`: the suffix from the last
dot of the basename, provided some character of the basename strictly
before that dot is not itself a dot (leading dots never start an
extension); otherwise empty. -/
def splitextExt (p : List Char) : List Char :=
  let base := basenameOf p
  match base.reverse.findIdx? (fun c => decide (c = '.')) with
  | some k =>
    if ((base.reverse.drop (k + 1)).reverse).any (fun c => decide (c ≠ '.')) then
      (base.reverse.take (k + 1)).reverse
    else []
  | none => []

/-- Root part of Python `os.path.splitext`: the path with its extension
removed. -/
def splitextRoot (p : List Char) : List Char :=
  p.take (p.length - (splitextExt p).length)

/-- Source `valid_title(title)`: nonempty, not junk, and with no
file-extension-like suffix. -/
def valid_title (t : List Char) : Bool :=
  !(empty_str t) && !(junk_line t) && empty_str (splitextExt t)

/-- Python `s.split(sep)` for a single-character separator: split at every
occurrence, keeping empty pieces. -/
def splitOn (sep : Char) : List Char → List (List Char)
  | [] => [[]]
  | c :: r =>
    if c = sep then [] :: splitOn sep r
    else
      match splitOn sep r with
      | [] => [[c]]
      | w :: ws => (c :: w) :: ws

/-- Python `sep.join(pieces)` for a single-character separator. -/
def joinWith (sep : Char) : List (List Char) → List Char
  | [] => []
  | [w] => w
  | w :: ws => w ++ sep :: joinWith sep ws

/-- Source `title_start(lines)`: index of the first line that is neither
blank nor junk; 0 when every line is blank or junk. -/
def title_start (lines : List (List Char)) : Nat :=
  match lines.findIdx? (fun l => !(empty_str l) && !(junk_line l)) with
  | some i => i
  | none => 0

/-- Source `title_end(lines, start, max_lines=2)`: the absolute index of the
first blank line among the `max_lines` lines following `start`; `start + 1`
when none of them is blank. -/
def title_end (lines : List (List Char)) (start : Nat) (maxLines : Nat) : Nat :=
  match ((lines.drop (start + 1)).take maxLines).findIdx? empty_str with
  | some k => start + 1 + k
  | none => start + 1

/-- Line-window heuristic shared by `text_title` and `pdftotext_title`:
`' '.join(line.strip() for line in lines[i:j])` with `i = title_start`,
`j = title_end`. -/
def lineWindowJoin (lines : List (List Char)) : List Char :=
  let i := title_start lines
  let j := title_end lines i 2
  joinWith ' ' (((lines.drop i).take (j - i)).map pyStrip)

/-- Source `pdftotext_title(filename)` with the external `pdftotext` dump
output passed in as `out`: strip and split the dump, apply the line-window
heuristic, then remove all dots and all tab/newline characters. -/
def pdftotext_title (out : List Char) : List Char :=
  ((lineWindowJoin (splitOn '\n' (pyStrip out))).filter
      (fun c => decide (c ≠ '.'))).filter
    (fun c => !(decide (c = '\t') || decide (c = '\n')))

/-- Source `pdf_title(filename)` with the two fallible external tiers passed
in at their boundary: `metaRes` is the outcome of the metadata tier
(`meta_title`, `.error` when it raises), `layoutRes` the outcome of the
layout tier (`text_title`), and `dumpOut` the raw output of the external
`pdftotext` dump used by the third tier.  The final fallback returns
`os.path.basename(os.path.splitext(filename)[0])` without any validation. -/
def pdf_title (metaRes layoutRes : Except Unit (List Char))
    (dumpOut fname : List Char) : List Char :=
  let tier3 :=
    let t := pdftotext_title dumpOut
    if valid_title t then t else basenameOf (splitextRoot fname)
  let tier2 :=
    match layoutRes with
    | .ok t => if valid_title t then t else tier3
    | .error _ => tier3
  match metaRes with
  | .ok t => if valid_title t then t else tier2
  | .error _ => tier2

/-- Source constant `TOLERANCE = 1e-06`, exact in ℚ (`mkRat` keeps every
constant kernel-computable). -/
def TOLERANCE : ℚ := mkRat 1 1000000

/-- Source `is_close(a, b)`: relative-tolerance float comparison,
`abs(a-b) <= relative_tolerance * max(abs(a), abs(b))`, modelled over exact
rationals. -/
def is_close (a b : ℚ) : Bool :=
  decide (|a - b| ≤ TOLERANCE * max |a| |b|)

/-- The `largest_text` dictionary of the source: current best title
candidate. -/
structure LargestText where
  contents : List Char
  y0 : ℚ
  size : ℚ
deriving DecidableEq

/-- Effect of `re.sub(r'\n$', ' ', line)`: Python's `$` matches at the end
of the string and also just before a final newline, and `re.sub` replaces
every non-overlapping occurrence scanning left to right, so the final
newline and (when present) the newline immediately before it are each
replaced by one space; earlier newlines are untouched. -/
def subNlEnd (l : List Char) : List Char :=
  match l.reverse with
  | '\n' :: '\n' :: r => (' ' :: ' ' :: r).reverse
  | '\n' :: r => (' ' :: r).reverse
  | _ => l

/-- Source `update_largest_text(line, y0, size, largest_text)`: keep the
candidate when both sizes are exactly zero and the incoming line lies
strictly below the candidate (beyond the tolerance); otherwise replace the
candidate when the incoming size is larger by more than the absolute
tolerance, and merge (append text, update y0) when the sizes are close in
the relative sense. -/
def update_largest_text (line : List Char) (y0 size : ℚ) (lt : LargestText) :
    LargestText :=
  if size = lt.size ∧ lt.size = 0 ∧ y0 - lt.y0 < -TOLERANCE then lt
  else
    let line2 := subNlEnd line
    if size - lt.size > TOLERANCE then ⟨line2, y0, size⟩
    else if is_close size lt.size then ⟨lt.contents ++ line2, y0, lt.size⟩
    else lt

/-- Fold of `update_largest_text` over a document-order stream of
(text, y0, size) lines, as performed by the extraction loop. -/
def track (ls : List (List Char × ℚ × ℚ)) (lt : LargestText) : LargestText :=
  ls.foldl (fun acc p => update_largest_text p.1 p.2.1 p.2.2 acc) lt

/-- The three values of `CHAR_PARSING_STATE` in the source: awaiting the
first glyph, awaiting distance calibration, inside a word. -/
inductive PState where
  | INIT_X
  | INIT_D
  | INSIDE_WORD
deriving DecidableEq

/-- The `INIT_D` block of `extract_figure_text` (source lines 209-215):
adopt the current gap as `char_distance` only when a positive distance is
already set AND the gap is below 2.5x the current estimate; then floor the
distance at 0.1 and move to `INSIDE_WORD`. -/
def initDStep (char_distance char_current_distance : ℚ) : ℚ × PState :=
  let d1 :=
    if char_distance > 0 ∧ char_current_distance < char_distance * mkRat 5 2 then
      char_current_distance
    else char_distance
  let d2 := if d1 < mkRat 1 10 then mkRat 1 10 else d1
  (d2, PState.INSIDE_WORD)

/-- The per-glyph mutable state of the reconstruction loop: current line
buffer, distance estimate, previous glyph's right edge, parsing state. -/
structure RState where
  line : List Char
  char_distance : ℚ
  char_previous_x1 : ℚ
  state : PState
deriving DecidableEq

/-- The same-font-size branch of the `extract_figure_text` loop body
(source lines 200-239): compute the gap to the previous glyph's right
edge, run the `INIT_X`/`INIT_D` initialisation chain, then the
space-insertion chain (x-position decrease, large gap, adaptive
recalibration, sequential), and finally append the glyph's text unless it
is whitespace-only. -/
def sameSizeStep (s : RState) (x0 x1 : ℚ) (ctext : List Char) : RState :=
  let d := |x0 - s.char_previous_x1|
  let s1 :=
    if s.state = PState.INIT_X then
      { s with char_previous_x1 := x1, state := PState.INIT_D }
    else if s.state = PState.INIT_D then
      { s with char_distance := (initDStep s.char_distance d).1,
               state := (initDStep s.char_distance d).2 }
    else s
  let s2 :=
    if s1.state = PState.INSIDE_WORD ∧ x1 < s1.char_previous_x1 then
      { s1 with line := s1.line ++ [' '], char_previous_x1 := x1,
                state := PState.INIT_D }
    else if s1.state = PState.INSIDE_WORD ∧ d > s1.char_distance * mkRat 17 2 then
      { s1 with line := s1.line ++ [' '], char_previous_x1 := x1 }
    else if s1.state = PState.INSIDE_WORD ∧ d > s1.char_distance ∧
        d < s1.char_distance * mkRat 5 2 then
      { s1 with char_distance := d, char_previous_x1 := x1 }
    else { s1 with char_previous_x1 := x1 }
  if empty_str ctext then s2 else { s2 with line := s2.line ++ ctext }

/-- One positioned glyph (`LTChar`): text, left/right x-edges, baseline
y-coordinate, font size. -/
structure Glyph where
  gtext : List Char
  x0 : ℚ
  x1 : ℚ
  gy0 : ℚ
  gsize : ℚ

/-- Full accumulator of the `extract_figure_text` loop: raw text so far,
current line, the line's y0 and size, the reconstruction state, and the
running largest-text candidate. -/
structure FigAcc where
  ftext : List Char
  line : List Char
  y0 : ℚ
  size : ℚ
  char_distance : ℚ
  char_previous_x1 : ℚ
  state : PState
  largest : LargestText

/-- Loop body of `extract_figure_text` for one glyph: on a font-size
change, flush the current line (into the candidate tracker and the raw
text, with a newline), start the new line from the glyph's text
unconditionally, and re-enter calibration; otherwise run the same-size
reconstruction step. -/
def figStep (acc : FigAcc) (g : Glyph) : FigAcc :=
  if g.gsize ≠ acc.size then
    { ftext := acc.ftext ++ acc.line ++ ['\n'],
      line := g.gtext,
      y0 := g.gy0,
      size := g.gsize,
      char_distance := acc.char_distance,
      char_previous_x1 := g.x1,
      state := PState.INIT_D,
      largest := update_largest_text acc.line acc.y0 acc.size acc.largest }
  else
    let r := sameSizeStep ⟨acc.line, acc.char_distance, acc.char_previous_x1, acc.state⟩
      g.x0 g.x1 g.gtext
    { acc with line := r.line, char_distance := r.char_distance,
               char_previous_x1 := r.char_previous_x1, state := r.state }

/-- Source `extract_figure_text(lt_obj, largest_text)` restricted to the
`LTChar` children (other children are skipped by the loop): fold the
per-glyph step from the initial empty state and return the updated
candidate and the accumulated raw text (the final unflushed line is NOT
appended to the text, exactly as in the source). -/
def extract_figure_text (gs : List Glyph) (largest : LargestText) :
    LargestText × List Char :=
  let a := gs.foldl figStep ⟨[], [], 0, 0, 0, 0, PState.INIT_X, largest⟩
  (a.largest, a.ftext)

/-- The sanitizer's allow-list `"-_.() " + string.ascii_letters +
string.digits`. -/
def validChar (c : Char) : Bool :=
  decide (c = '-') || decide (c = '_') || decide (c = '.') || decide (c = '(') ||
  decide (c = ')') || decide (c = ' ') || isAsciiLetter c || isAsciiDigit c

/-- Character class of the whitespace-collapsing regex `[ \t][ \t]*`. -/
def spTab (c : Char) : Bool :=
  decide (c = ' ') || decide (c = '\t')

/-- Substitution `re.sub(r': ', ' - ', s)`: replace every (non-overlapping,
leftmost-first) occurrence of colon-space by space-dash-space. -/
def colonSub : List Char → List Char
  | [] => []
  | [c] => [c]
  | a :: b :: r =>
    if a = ':' ∧ b = ' ' then ' ' :: '-' :: ' ' :: colonSub r
    else a :: colonSub (b :: r)

/-- Fuel-indexed worker for stripping trailing ".pdf" repetitions; the fuel
(initially the string length) only bounds the recursion depth and never
runs out, since each step shortens the list by 4. -/
def stripPdfFuel : Nat → List Char → List Char
  | 0, l => l
  | Nat.succ n, l =>
    if ['.', 'p', 'd', 'f'] <:+ l then stripPdfFuel n (l.take (l.length - 4))
    else l

/-- Strip every trailing repetition of ".pdf". -/
def stripPdfCore (l : List Char) : List Char :=
  stripPdfFuel l.length l

/-- Substitution `re.sub(r'\.pdf(\.pdf)*$', '', s)`: the anchor `$` also
matches just before a final newline, so a final newline is preserved and
the ".pdf" repetitions immediately before it (or before the true end) are
removed. -/
def stripPdfEnd (l : List Char) : List Char :=
  if l.getLast? = some '\n' then stripPdfCore l.dropLast ++ ['\n']
  else stripPdfCore l

/-- Substitution `re.sub(r'[ \t][ \t]*', ' ', s)`: replace every maximal
run of spaces/tabs by a single space. -/
def collapseWs : List Char → List Char
  | [] => []
  | [c] => if spTab c then [' '] else [c]
  | a :: b :: r =>
    if spTab a then
      (if spTab b then collapseWs (b :: r) else ' ' :: collapseWs (b :: r))
    else a :: collapseWs (b :: r)

/-- Source `sanitize(filename)` with the external transliteration
(`unidecode.unidecode` composed with the `utf-8` round-trip, whose failure
path keeps the string unchanged) abstracted as the parameter `f`: keep the
first 20 space-separated words, truncate to 200 characters, transliterate,
replace commas by spaces and colon-space by " - ", strip trailing ".pdf"
repetitions, collapse space/tab runs, and keep only allow-listed
characters. -/
def sanitize (f : List Char → List Char) (x : List Char) : List Char :=
  let s1 := joinWith ' ' ((splitOn ' ' x).take 20)
  let s2 := if s1.length > 200 then s1.take 200 else s1
  let s3 := f s2
  let s4 := s3.map (fun c => if c = ',' then ' ' else c)
  let s5 := colonSub s4
  let s6 := stripPdfEnd s5
  let s7 := collapseWs s6
  s7.filter validChar

/-- C6: the four concrete classifications of the claim, plus the general
serial-number rule as the code actually implements it: a line is junk
whenever its alphabetic-character count is below the FLOOR of half its
non-whitespace-character count (Python 2 integer division), not below the
exact half. -/
theorem c6_amended :
    junk_line (String.toList "Abstract") = true ∧
    junk_line (String.toList "") = true ∧
    junk_line (String.toList "123-456") = true ∧
    junk_line (String.toList "A Fully Polynomial Time Approximation Scheme") = false ∧
    (∀ l : List Char,
      ((pyStrip l).filter isAsciiLetter).length <
        ((pyStrip l).filter (fun c =>
          !(decide (c = ' ') || decide (c = '\t') || decide (c = '\n')))).length / 2 →
      junk_line l = true) := by
  refine ⟨by decide, by decide, by decide, by decide, ?_⟩
  intro l h
  unfold junk_line
  simp only [Bool.or_eq_true, decide_eq_true_eq]
  tauto

/-- C6 witness: the general serial-number rule of `c6_amended`, applied at
the concrete input "123-456" (0 alphabetic characters, 7 non-whitespace
characters, 0 < 7 / 2 = 3). -/
theorem c6_witness : junk_line (String.toList "123-456") = true :=
  c6_amended.2.2.2.2 (String.toList "123-456") (by decide)

/-- C6 counterexample: the line "a.b.c.." has 3 alphabetic characters and 7
non-whitespace characters, so its alphabetic count IS less than half its
non-whitespace count (2 * 3 < 7), yet `junk_line` classifies it as NOT junk,
because the code compares against the floor 7 / 2 = 3 (Python 2 integer
division) and 3 < 3 fails. -/
theorem c6_counterexample :
    2 * ((pyStrip (String.toList "a.b.c..")).filter isAsciiLetter).length <
      ((pyStrip (String.toList "a.b.c..")).filter (fun c =>
        !(decide (c = ' ') || decide (c = '\t') || decide (c = '\n')))).length ∧
    junk_line (String.toList "a.b.c..") = false := by
  constructor
  · decide
  · decide

/-- C9 counterexample: with lines "Title line" / "second" / "third", none of
the two lines following the start line is blank, yet the selected window is
the start line ALONE, not the start line plus the two following lines:
`title_end` returns `start + 1` when no blank line occurs in the window. -/
theorem c9_counterexample :
    empty_str (String.toList "second") = false ∧
    empty_str (String.toList "third") = false ∧
    lineWindowJoin
        [String.toList "Title line", String.toList "second", String.toList "third"] =
      String.toList "Title line" ∧
    String.toList "Title line" ≠ String.toList "Title line second third" := by
  decide

/-- C9 (amended): the window starts at the first line that is neither blank
nor junk; scanning the (at most) 2 lines that follow it, the window extends
to the first blank line (exclusive); but when NONE of those lines is blank,
the window degenerates to the start line alone (`title_end` falls back to
`start + 1`), and the joined window text is just the stripped start line. -/
theorem c9_amended (lines : List (List Char))
    (h : ∀ l ∈ (lines.drop (title_start lines + 1)).take 2, empty_str l = false) :
    title_end lines (title_start lines) 2 = title_start lines + 1 ∧
    lineWindowJoin lines = pyStrip (lines.getD (title_start lines) []) := by
  have he : ((lines.drop (title_start lines + 1)).take 2).findIdx? empty_str = none := by
    rw [List.findIdx?_eq_none_iff]
    intro x hx
    simp [h x hx]
  have hend : title_end lines (title_start lines) 2 = title_start lines + 1 := by
    unfold title_end
    rw [he]
  refine ⟨hend, ?_⟩
  show joinWith ' '
      (((lines.drop (title_start lines)).take
        (title_end lines (title_start lines) 2 - title_start lines)).map pyStrip) =
    pyStrip (lines.getD (title_start lines) [])
  rw [hend]
  simp only [Nat.add_sub_cancel_left]
  rcases hd : lines.drop (title_start lines) with _ | ⟨w, rest⟩
  · have hlen : lines.length ≤ title_start lines := by
      have := congrArg List.length hd
      simp only [List.length_drop, List.length_nil] at this
      omega
    rw [List.getD_eq_default _ _ hlen]
    simp [joinWith, pyStrip]
  · have hw : lines.getD (title_start lines) [] = w := by
      have h1 : lines[title_start lines]? = some w := by
        have := List.getElem?_drop lines (title_start lines) 0
        simpa [hd] using this.symm
      simp [List.getD_eq_getElem?_getD, h1]
    rw [hw]
    simp [joinWith]

/-- C9 witness: `c9_amended` applied to the concrete line list of the
counterexample scenario, whose two follow-up lines are both non-blank. -/
theorem c9_witness :
    title_end
        [String.toList "Title line", String.toList "second", String.toList "third"]
        (title_start
          [String.toList "Title line", String.toList "second", String.toList "third"]) 2 =
      title_start
        [String.toList "Title line", String.toList "second", String.toList "third"] + 1 ∧
    lineWindowJoin
        [String.toList "Title line", String.toList "second", String.toList "third"] =
      pyStrip
        ([String.toList "Title line", String.toList "second", String.toList "third"].getD
          (title_start
            [String.toList "Title line", String.toList "second", String.toList "third"]) []) :=
  c9_amended
    [String.toList "Title line", String.toList "second", String.toList "third"]
    (by decide)

/-- C1 counterexample: a dump whose lines are ALL junk ("Abstract",
"123456", a blank line, "123-456") does not force the filename-stem
fallback: the line window joins the two junk lines "Abstract" and "123456"
into "Abstract 123456", which passes `valid_title` (junk-ness is not
preserved by joining), so `pdf_title` returns it instead of the stem
"doc". -/
theorem c1_counterexample :
    (∀ l ∈ splitOn '\n' (pyStrip (String.toList "Abstract\n123456\n\n123-456")),
      junk_line l = true) ∧
    pdf_title (.error ()) (.error ())
        (String.toList "Abstract\n123456\n\n123-456") (String.toList "doc.pdf") =
      String.toList "Abstract 123456" ∧
    String.toList "Abstract 123456" ≠ String.toList "doc" := by
  refine ⟨by decide, by decide, by decide⟩

/-- C1 (amended): when the metadata tier raises or returns a title rejected
by `valid_title`, the layout tier likewise raises or returns a rejected
title, and the external-dump tier's line-window TITLE is rejected by
`valid_title` (returning only junk lines is not enough, since joined junk
lines may validate), `pdf_title` returns the filename stem
`basename(splitext(filename)[0])`, without validating it. -/
theorem c1_amended (metaRes layoutRes : Except Unit (List Char))
    (dumpOut fname : List Char)
    (hm : ∀ t, metaRes = .ok t → valid_title t = false)
    (hl : ∀ t, layoutRes = .ok t → valid_title t = false)
    (hd : valid_title (pdftotext_title dumpOut) = false) :
    pdf_title metaRes layoutRes dumpOut fname = basenameOf (splitextRoot fname) := by
  unfold pdf_title
  cases metaRes with
  | ok t =>
    simp only [hm t rfl, Bool.false_eq_true, if_false]
    cases layoutRes with
    | ok u => simp [hl u rfl, hd]
    | error e => simp [hd]
  | error e =>
    cases layoutRes with
    | ok u => simp [hl u rfl, hd]
    | error e2 => simp [hd]

/-- C1 witness: every tier fails (both external tiers raise, the dump is the
single junk line "junk"), so `pdf_title` returns the stem "ab" of the input
filename "ab.pdf" — even though "ab" is itself junk (too short), showing the
final fallback is never validated. -/
theorem c1_witness :
    pdf_title (.error ()) (.error ()) (String.toList "junk") (String.toList "ab.pdf") =
      String.toList "ab" ∧
    junk_line (String.toList "ab") = true := by
  have h := c1_amended (.error ()) (.error ()) (String.toList "junk")
    (String.toList "ab.pdf")
    (by intro t ht; cases ht) (by intro t ht; cases ht) (by decide)
  rw [h]
  exact ⟨by decide, by decide⟩

/-- Bridge from the kernel-computable `mkRat` literals to the division form
`norm_num` understands. -/
theorem mkRat_as_div (n : ℤ) (d : ℕ) : mkRat n d = (n : ℚ) / (d : ℚ) := by
  rw [Rat.mkRat_eq_divInt, Rat.divInt_eq_div]
  norm_num

/-- Value of the tolerance constant in division form. -/
theorem TOLERANCE_eq : TOLERANCE = 1 / 1000000 := by
  unfold TOLERANCE
  rw [mkRat_as_div]
  norm_num

/-- C5: when both the incoming size and the candidate's size are exactly
zero and the incoming line's y-coordinate is below the candidate's by more
than the tolerance, the candidate is returned unchanged — with absent size
information the first (topmost) qualifying line is kept. -/
theorem c5_zero_size_keeps_first (line : List Char) (y0 : ℚ) (lt : LargestText)
    (hsz : lt.size = 0) (hy : y0 - lt.y0 < -TOLERANCE) :
    update_largest_text line y0 0 lt = lt := by
  unfold update_largest_text
  rw [if_pos ⟨hsz.symm, hsz, hy⟩]

/-- C5 witness: a line one unit further down the page than a zero-size
candidate leaves the candidate untouched. -/
theorem c5_witness :
    update_largest_text (String.toList "Later line") (-1) 0
        ⟨String.toList "First line", 0, 0⟩ =
      ⟨String.toList "First line", 0, 0⟩ :=
  c5_zero_size_keeps_first (String.toList "Later line") (-1)
    ⟨String.toList "First line", 0, 0⟩ rfl (by rw [TOLERANCE_eq]; norm_num)

/-- C3 counterexample: for large sizes the relative tolerance admits pairs
whose difference exceeds the absolute replacement threshold `TOLERANCE`:
sizes 10000000 and 9999995 are approximately equal (`is_close` holds, since
5 ≤ 1e-6 * 10000000 = 10), yet `update_largest_text` takes the REPLACEMENT
branch (10000000 - 9999995 = 5 > 1e-6), not the merge branch: the incoming
text replaces the candidate instead of being appended. -/
theorem c3_counterexample :
    is_close 10000000 9999995 = true ∧
    update_largest_text (String.toList "x") 1 10000000
        ⟨String.toList "A", 0, 9999995⟩ =
      ⟨String.toList "x", 1, 10000000⟩ ∧
    (⟨String.toList "x", 1, 10000000⟩ : LargestText) ≠
      ⟨String.toList "Ax", 1, 9999995⟩ := by
  refine ⟨?_, ?_, ?_⟩
  · simp only [is_close, decide_eq_true_eq, TOLERANCE_eq]
    norm_num
  · unfold update_largest_text
    split_ifs with h1 h2 h3
    · exact absurd h1 (by norm_num [TOLERANCE_eq])
    · simp only [LargestText.mk.injEq]
      refine ⟨by decide, trivial, trivial⟩
    · exact absurd h2 (by norm_num [TOLERANCE_eq])
    · exact absurd h2 (by norm_num [TOLERANCE_eq])
  · simp only [ne_eq, LargestText.mk.injEq]
    intro h
    exact absurd h.2.2 (by norm_num)

/-- C3 (amended): when the incoming size is approximately equal to the
candidate's size AND does not exceed it by more than the absolute tolerance
(so the replacement branch cannot fire first) AND the zero-size/lower-line
early return does not apply, the merge branch is taken: the incoming text
(with a trailing newline, if any, turned into a space) is appended to the
candidate's text, the y-coordinate is updated to the incoming line's, and
the size is kept.  In particular this covers sizes 11.9999995 vs 12.0 and
equal nonzero sizes. -/
theorem c3_merge_branch (line : List Char) (y0 size : ℚ) (lt : LargestText)
    (hclose : is_close size lt.size = true)
    (hle : size - lt.size ≤ TOLERANCE)
    (hzero : ¬(size = lt.size ∧ lt.size = 0 ∧ y0 - lt.y0 < -TOLERANCE)) :
    update_largest_text line y0 size lt =
      ⟨lt.contents ++ subNlEnd line, y0, lt.size⟩ := by
  unfold update_largest_text
  split_ifs with h1
  · exact absurd h1 (not_lt.mpr hle)
  · rfl

/-- C3 witness: the claim's own instance — an incoming line of size
11.9999995 (= mkRat 23999999 2000000) against a candidate of size 12.0 takes the
merge branch: text appended, y0 updated, size kept. -/
theorem c3_witness :
    update_largest_text (String.toList "B") 5 (mkRat 23999999 2000000)
        ⟨String.toList "A", 0, 12⟩ =
      ⟨String.toList "AB", 5, 12⟩ := by
  have h := c3_merge_branch (String.toList "B") 5 (mkRat 23999999 2000000)
    ⟨String.toList "A", 0, 12⟩
    (by simp only [is_close, decide_eq_true_eq, TOLERANCE_eq]
        rw [mkRat_as_div]
        push_cast
        rw [show max |(23999999:ℚ)/2000000| |(12:ℚ)| = 12 by
          rw [abs_of_nonneg (by norm_num), abs_of_nonneg (by norm_num)]
          exact max_eq_right (by norm_num)]
        rw [abs_sub_comm, abs_of_nonneg (by norm_num)]
        norm_num)
    (by norm_num [TOLERANCE_eq, mkRat_as_div])
    (by intro hc
        have := hc.1
        norm_num [mkRat_as_div] at this)
  rw [h]
  simp only [LargestText.mk.injEq]
  refine ⟨by decide, trivial, trivial⟩

/-- Helper: when the incoming size exceeds the candidate's by more than the
absolute tolerance, `update_largest_text` replaces the candidate outright. -/
theorem update_replaces (line : List Char) (y0 size : ℚ) (lt : LargestText)
    (h : TOLERANCE < size - lt.size) :
    update_largest_text line y0 size lt = ⟨subNlEnd line, y0, size⟩ := by
  have htpos : (0 : ℚ) < TOLERANCE := by rw [TOLERANCE_eq]; norm_num
  unfold update_largest_text
  split_ifs with g1
  · exfalso
    have hz : size - lt.size = 0 := by rw [g1.1]; ring
    rw [hz] at h
    linarith
  · rfl

/-- C4 counterexample: the two-line stream with strictly increasing sizes
0.25e-6 (= mkRat 1 4000000) and 0.5e-6 (= mkRat 1 2000000), folded from the
empty candidate, leaves the candidate EMPTY: neither size exceeds the
previous candidate size by more than `TOLERANCE` (so no replacement) nor is
relatively close to 0 (so no merge), hence both lines are ignored and the
final text is not the last line's text "b". -/
theorem c4_counterexample :
    (mkRat 1 4000000 : ℚ) < mkRat 1 2000000 ∧
    (track [(String.toList "a", 0, mkRat 1 4000000),
            (String.toList "b", 0, mkRat 1 2000000)] ⟨[], 0, 0⟩).contents = [] ∧
    ([] : List Char) ≠ String.toList "b" := by
  have h1 : update_largest_text (String.toList "a") 0 (mkRat 1 4000000)
      ⟨[], 0, 0⟩ = ⟨[], 0, 0⟩ := by
    unfold update_largest_text
    split_ifs with g1 g2 g3
    · rfl
    · exact absurd g2 (by norm_num [TOLERANCE_eq, mkRat_as_div])
    · exfalso
      simp only [is_close, decide_eq_true_eq, TOLERANCE_eq] at g3
      norm_num [mkRat_as_div] at g3
    · rfl
  have h2 : update_largest_text (String.toList "b") 0 (mkRat 1 2000000)
      ⟨[], 0, 0⟩ = ⟨[], 0, 0⟩ := by
    unfold update_largest_text
    split_ifs with g1 g2 g3
    · rfl
    · exact absurd g2 (by norm_num [TOLERANCE_eq, mkRat_as_div])
    · exfalso
      simp only [is_close, decide_eq_true_eq, TOLERANCE_eq] at g3
      norm_num [mkRat_as_div] at g3
    · rfl
  refine ⟨by norm_num [mkRat_as_div], ?_, by decide⟩
  show (update_largest_text (String.toList "b") 0 (mkRat 1 2000000)
    (update_largest_text (String.toList "a") 0 (mkRat 1 4000000)
      ⟨[], 0, 0⟩)).contents = []
  rw [h1, h2]

/-- C4 (amended): for a non-empty stream of lines whose first size exceeds
the starting candidate's size by MORE THAN the tolerance and in which each
successive size exceeds its predecessor's by MORE THAN the tolerance (plain
strict increase is not enough), every step takes the replacement branch, so
the final candidate is exactly the last line: its text (with a trailing
newline, if any, turned into a space), its y-coordinate and its size. -/
theorem c4_increasing_sizes (rest : List (List Char × ℚ × ℚ)) :
    ∀ (p : List Char × ℚ × ℚ) (lt : LargestText),
      TOLERANCE < p.2.2 - lt.size →
      List.Chain' (fun a b => TOLERANCE < b.2.2 - a.2.2) (p :: rest) →
      track (p :: rest) lt =
        ⟨subNlEnd (rest.getLastD p).1, (rest.getLastD p).2.1, (rest.getLastD p).2.2⟩ := by
  induction rest with
  | nil =>
    intro p lt hfirst _
    show update_largest_text p.1 p.2.1 p.2.2 lt = _
    simp only [List.getLastD_nil]
    exact update_replaces p.1 p.2.1 p.2.2 lt hfirst
  | cons q rest2 ih =>
    intro p lt hfirst hchain
    have hstep : update_largest_text p.1 p.2.1 p.2.2 lt =
        ⟨subNlEnd p.1, p.2.1, p.2.2⟩ :=
      update_replaces p.1 p.2.1 p.2.2 lt hfirst
    have hq : TOLERANCE < q.2.2 - p.2.2 := (List.chain'_cons.mp hchain).1
    have htail : List.Chain' (fun a b => TOLERANCE < b.2.2 - a.2.2) (q :: rest2) :=
      (List.chain'_cons.mp hchain).2
    have : track (p :: q :: rest2) lt =
        track (q :: rest2) ⟨subNlEnd p.1, p.2.1, p.2.2⟩ := by
      show track (q :: rest2) (update_largest_text p.1 p.2.1 p.2.2 lt) = _
      rw [hstep]
    rw [this, ih q ⟨subNlEnd p.1, p.2.1, p.2.2⟩ hq htail, List.getLastD_cons]

/-- C4 witness: sizes 10 then 18 (each step exceeding the previous size by
more than the tolerance) starting from the empty zero-size candidate end
with the last line "Title" as the candidate. -/
theorem c4_witness :
    track [(String.toList "Intro", 1, 10), (String.toList "Title", 2, 18)]
        ⟨[], 0, 0⟩ =
      ⟨String.toList "Title", 2, 18⟩ := by
  have h := c4_increasing_sizes [(String.toList "Title", 2, 18)]
    (String.toList "Intro", 1, 10) ⟨[], 0, 0⟩
    (by rw [TOLERANCE_eq]; norm_num)
    (by refine List.chain'_cons.mpr ⟨by rw [TOLERANCE_eq]; norm_num, ?_⟩
        exact List.chain'_singleton _)
  rw [h]
  show (⟨subNlEnd (String.toList "Title"), 2, 18⟩ : LargestText) =
    ⟨String.toList "Title", 2, 18⟩
  simp only [LargestText.mk.injEq]
  refine ⟨by decide, trivial, trivial⟩

/-- C7 counterexample: in the `INIT_D` state with NO positive typical
distance set (`char_distance = 0`) and an incoming gap of 5, the gap is NOT
adopted (the code requires `char_distance > 0` conjunctively): the
resulting distance is the floor value 0.1, not 5. -/
theorem c7_counterexample :
    initDStep 0 5 = (mkRat 1 10, PState.INSIDE_WORD) ∧ (mkRat 1 10 : ℚ) ≠ 5 := by
  constructor
  · simp only [initDStep]
    norm_num [mkRat_as_div]
  · norm_num [mkRat_as_div]

/-- C7 (amended): in the `INIT_D` state the new gap is adopted as
`char_distance` only when a positive typical distance IS already set and
the gap is less than 2.5x the current estimate (not when the distance is
unset); the chosen value is then floored at the epsilon 0.1, and the state
moves to `INSIDE_WORD`. -/
theorem c7_calibration (dist d : ℚ) :
    (initDStep dist d).2 = PState.INSIDE_WORD ∧
    mkRat 1 10 ≤ (initDStep dist d).1 ∧
    ((dist > 0 ∧ d < dist * mkRat 5 2) →
      (initDStep dist d).1 = max (mkRat 1 10) d) ∧
    (¬(dist > 0 ∧ d < dist * mkRat 5 2) →
      (initDStep dist d).1 = max (mkRat 1 10) dist) := by
  simp only [initDStep]
  split_ifs with g1 g2 g3
  · exact ⟨trivial, le_refl _, fun _ => (max_eq_left (le_of_lt g2)).symm,
      fun hn => absurd g1 hn⟩
  · exact ⟨trivial, not_lt.mp g2, fun _ => (max_eq_right (not_lt.mp g2)).symm,
      fun hn => absurd g1 hn⟩
  · exact ⟨trivial, le_refl _, fun hadopt => absurd hadopt g1,
      fun _ => (max_eq_left (le_of_lt g3)).symm⟩
  · exact ⟨trivial, not_lt.mp g3, fun hadopt => absurd hadopt g1,
      fun _ => (max_eq_right (not_lt.mp g3)).symm⟩

/-- C7 witness: with a positive distance 1 already set and a gap of 2
(below 2.5x the estimate), the gap is adopted and survives the floor, and
the state moves to `INSIDE_WORD`. -/
theorem c7_witness :
    (initDStep 1 2).1 = 2 ∧ (initDStep 1 2).2 = PState.INSIDE_WORD := by
  have h := c7_calibration 1 2
  refine ⟨?_, h.1⟩
  have ha := h.2.2.1 ⟨by norm_num, by norm_num [mkRat_as_div]⟩
  rw [ha, max_eq_right]
  norm_num [mkRat_as_div]

/-- C8 counterexample: in `INSIDE_WORD` state, a glyph whose LEFT edge
(x0 = 9) is to the left of the previous glyph's right edge (10) but whose
RIGHT edge (x1 = 11) is not, inserts NO space and does not reset the state:
the code compares `child.x1`, not `child.x0`, against
`char_previous_x1`. -/
theorem c8_counterexample :
    ((9 : ℚ) < 10) ∧
    sameSizeStep ⟨String.toList "w", 1, 10, PState.INSIDE_WORD⟩ 9 11
        (String.toList "a") =
      ⟨String.toList "wa", 1, 11, PState.INSIDE_WORD⟩ ∧
    (⟨String.toList "wa", 1, 11, PState.INSIDE_WORD⟩ : RState) ≠
      ⟨String.toList "w a", 1, 11, PState.INIT_D⟩ := by
  refine ⟨by norm_num, ?_, ?_⟩
  · simp [sameSizeStep]
    rw [show empty_str ['a'] = false from by decide]
    norm_num [mkRat_as_div]
  · intro h
    exact absurd (congrArg RState.state h) (by decide)

/-- C8 (amended): in `INSIDE_WORD` state, whenever the incoming glyph's
RIGHT edge (x1) is smaller than the previous glyph's right edge, the step
appends a space to the line (followed by the glyph's text when that text is
not whitespace-only), records the new right edge, and resets the state to
`INIT_D` (awaiting distance calibration); the distance estimate is kept. -/
theorem c8_x_decrease (s : RState) (x0 x1 : ℚ) (ctext : List Char)
    (hst : s.state = PState.INSIDE_WORD) (hx : x1 < s.char_previous_x1) :
    sameSizeStep s x0 x1 ctext =
      ⟨s.line ++ [' '] ++ (if empty_str ctext then [] else ctext),
       s.char_distance, x1, PState.INIT_D⟩ := by
  obtain ⟨line, dist, px, st⟩ := s
  have hst2 : st = PState.INSIDE_WORD := hst
  have hx2 : x1 < px := hx
  subst hst2
  simp only [sameSizeStep]
  simp [hx2]
  split_ifs with h
  · simp
  · simp

/-- C8 witness: a glyph with right edge 3 below the previous right edge 10
appends a space and the glyph text, and resets to `INIT_D`. -/
theorem c8_witness :
    sameSizeStep ⟨String.toList "w", 1, 10, PState.INSIDE_WORD⟩ 2 3
        (String.toList "a") =
      ⟨String.toList "w a", 1, 3, PState.INIT_D⟩ := by
  have h := c8_x_decrease ⟨String.toList "w", 1, 10, PState.INSIDE_WORD⟩ 2 3
    (String.toList "a") rfl (by norm_num)
  rw [h]
  rw [show empty_str (String.toList "a") = false from by decide]
  decide

/-- C10 counterexample: in the glyph run x(size 12), SPACE(size 10),
y(size 10), z(size 11), the whitespace-only glyph with a NEW font size
starts a new line and its text is assigned to the line verbatim
(`line = char_text` has no emptiness check), so the reconstructed text
"\nx\n y\n" contains a space character copied from a space glyph even
though neither the gap heuristic nor the x-position-decrease heuristic
ever fired. -/
theorem c10_counterexample :
    empty_str (String.toList " ") = true ∧
    (extract_figure_text
        [⟨String.toList "x", 0, 1, 100, 12⟩,
         ⟨String.toList " ", 2, 3, 90, 10⟩,
         ⟨String.toList "y", 3, 4, 90, 10⟩,
         ⟨String.toList "z", 5, 6, 80, 11⟩] ⟨[], 0, 0⟩).2 =
      String.toList "\nx\n y\n" ∧
    ' ' ∈ (extract_figure_text
        [⟨String.toList "x", 0, 1, 100, 12⟩,
         ⟨String.toList " ", 2, 3, 90, 10⟩,
         ⟨String.toList "y", 3, 4, 90, 10⟩,
         ⟨String.toList "z", 5, 6, 80, 11⟩] ⟨[], 0, 0⟩).2 := by
  have e0 : update_largest_text [] 0 0 ⟨[], 0, 0⟩ = ⟨[], 0, 0⟩ := by
    unfold update_largest_text
    split_ifs with g1 g2 g3
    · rfl
    · exact absurd g2 (by norm_num [TOLERANCE_eq])
    · simp [subNlEnd]
    · rfl
  have e1 : figStep ⟨[], [], 0, 0, 0, 0, PState.INIT_X, ⟨[], 0, 0⟩⟩
      ⟨String.toList "x", 0, 1, 100, 12⟩ =
      ⟨String.toList "\n", String.toList "x", 100, 12, 0, 1, PState.INIT_D,
        ⟨[], 0, 0⟩⟩ := by
    unfold figStep
    rw [if_pos (by norm_num), e0]
    simp
  have e2 : figStep
      ⟨String.toList "\n", String.toList "x", 100, 12, 0, 1, PState.INIT_D,
        ⟨[], 0, 0⟩⟩
      ⟨String.toList " ", 2, 3, 90, 10⟩ =
      ⟨String.toList "\nx\n", String.toList " ", 90, 10, 0, 3, PState.INIT_D,
        ⟨String.toList "x", 100, 12⟩⟩ := by
    unfold figStep
    rw [if_pos (by norm_num),
      update_replaces _ _ _ _ (by rw [TOLERANCE_eq]; norm_num)]
    simp [subNlEnd]
  have e3 : figStep
      ⟨String.toList "\nx\n", String.toList " ", 90, 10, 0, 3, PState.INIT_D,
        ⟨String.toList "x", 100, 12⟩⟩
      ⟨String.toList "y", 3, 4, 90, 10⟩ =
      ⟨String.toList "\nx\n", String.toList " y", 90, 10, mkRat 1 10, 4,
        PState.INSIDE_WORD, ⟨String.toList "x", 100, 12⟩⟩ := by
    unfold figStep
    rw [if_neg (by norm_num)]
    have hstep : sameSizeStep ⟨String.toList " ", 0, 3, PState.INIT_D⟩ 3 4
        (String.toList "y") =
        ⟨String.toList " y", mkRat 1 10, 4, PState.INSIDE_WORD⟩ := by
      simp [sameSizeStep, initDStep]
      rw [show empty_str ['y'] = false from by decide]
      norm_num [mkRat_as_div]
    rw [hstep]
  have e4 : figStep
      ⟨String.toList "\nx\n", String.toList " y", 90, 10, mkRat 1 10, 4,
        PState.INSIDE_WORD, ⟨String.toList "x", 100, 12⟩⟩
      ⟨String.toList "z", 5, 6, 80, 11⟩ =
      ⟨String.toList "\nx\n y\n", String.toList "z", 80, 11, mkRat 1 10, 6,
        PState.INIT_D, ⟨String.toList "x", 100, 12⟩⟩ := by
    unfold figStep
    rw [if_pos (by norm_num)]
    have hupd : update_largest_text (String.toList " y") 90 10
        ⟨String.toList "x", 100, 12⟩ = ⟨String.toList "x", 100, 12⟩ := by
      unfold update_largest_text
      split_ifs with g1 g2 g3
      · rfl
      · exact absurd g2 (by norm_num [TOLERANCE_eq])
      · exfalso
        simp only [is_close, decide_eq_true_eq, TOLERANCE_eq] at g3
        norm_num at g3
      · rfl
    rw [hupd]
    simp
  have hfold :
      [(⟨String.toList "x", 0, 1, 100, 12⟩ : Glyph),
       ⟨String.toList " ", 2, 3, 90, 10⟩,
       ⟨String.toList "y", 3, 4, 90, 10⟩,
       ⟨String.toList "z", 5, 6, 80, 11⟩].foldl figStep
        ⟨[], [], 0, 0, 0, 0, PState.INIT_X, ⟨[], 0, 0⟩⟩ =
      ⟨String.toList "\nx\n y\n", String.toList "z", 80, 11, mkRat 1 10, 6,
        PState.INIT_D, ⟨String.toList "x", 100, 12⟩⟩ := by
    simp only [List.foldl_cons, List.foldl_nil, e1, e2, e3, e4]
  refine ⟨by decide, ?_, ?_⟩
  · show ([(⟨String.toList "x", 0, 1, 100, 12⟩ : Glyph),
       ⟨String.toList " ", 2, 3, 90, 10⟩,
       ⟨String.toList "y", 3, 4, 90, 10⟩,
       ⟨String.toList "z", 5, 6, 80, 11⟩].foldl figStep
        ⟨[], [], 0, 0, 0, 0, PState.INIT_X, ⟨[], 0, 0⟩⟩).ftext =
      String.toList "\nx\n y\n"
    rw [hfold]
  · show ' ' ∈ ([(⟨String.toList "x", 0, 1, 100, 12⟩ : Glyph),
       ⟨String.toList " ", 2, 3, 90, 10⟩,
       ⟨String.toList "y", 3, 4, 90, 10⟩,
       ⟨String.toList "z", 5, 6, 80, 11⟩].foldl figStep
        ⟨[], [], 0, 0, 0, 0, PState.INIT_X, ⟨[], 0, 0⟩⟩).ftext
    rw [hfold]
    decide

/-- C10 (amended): in the SAME-SIZE branch, a glyph whose text is
whitespace-only never contributes its own text to the line: the line grows
by at most one heuristic-inserted space.  (A whitespace glyph that starts a
NEW line via a font-size change is assigned to the line verbatim, so spaces
there CAN be copied from glyphs.) -/
theorem c10_whitespace_glyph_dropped (s : RState) (x0 x1 : ℚ) (ctext : List Char)
    (h : empty_str ctext = true) :
    (sameSizeStep s x0 x1 ctext).line = s.line ∨
    (sameSizeStep s x0 x1 ctext).line = s.line ++ [' '] := by
  obtain ⟨line, dist, px, st⟩ := s
  simp only [sameSizeStep, h, if_true]
  split_ifs <;> simp

/-- C10 witness: a pure-space glyph inside a word (no heuristic firing)
leaves the line unchanged or with only a heuristic space appended. -/
theorem c10_witness :
    (sameSizeStep ⟨String.toList "ab", 1, 5, PState.INSIDE_WORD⟩ 6 7
        (String.toList " ")).line = String.toList "ab" ∨
    (sameSizeStep ⟨String.toList "ab", 1, 5, PState.INSIDE_WORD⟩ 6 7
        (String.toList " ")).line = String.toList "ab" ++ [' '] :=
  c10_whitespace_glyph_dropped ⟨String.toList "ab", 1, 5, PState.INSIDE_WORD⟩ 6 7
    (String.toList " ") (by decide)

/-- C2 counterexample: sanitize is NOT idempotent (for any transliteration
that is the identity on allow-listed strings, e.g. the identity itself):
on "a @ b" the first pass drops the disallowed '@' AFTER whitespace runs
were collapsed, producing "a  b" with a double space; the second pass
collapses that double space to "a b". -/
theorem c2_counterexample :
    ¬ (∀ f : List Char → List Char,
        (∀ m, (∀ c ∈ m, validChar c = true) → f m = m) →
        ∀ x, sanitize f (sanitize f x) = sanitize f x) := by
  intro h
  have heq := h (fun m => m) (fun _ _ => rfl) (String.toList "a @ b")
  have hne : sanitize (fun m => m) (sanitize (fun m => m) (String.toList "a @ b")) ≠
      sanitize (fun m => m) (String.toList "a @ b") := by decide
  exact hne heq

/-- Helper: `splitOn` never returns the empty list of pieces. -/
theorem splitOn_ne_nil (sep : Char) (l : List Char) : splitOn sep l ≠ [] := by
  induction l with
  | nil => simp [splitOn]
  | cons c r ih =>
    simp only [splitOn]
    split_ifs
    · simp
    · rcases h : splitOn sep r with _ | ⟨w, ws⟩
      · simp
      · simp

/-- Helper: joining the pieces of `splitOn` with the separator restores the
original string. -/
theorem joinWith_splitOn (sep : Char) (l : List Char) :
    joinWith sep (splitOn sep l) = l := by
  induction l with
  | nil => rfl
  | cons c r ih =>
    simp only [splitOn]
    split_ifs with hc
    · subst hc
      rcases h : splitOn c r with _ | ⟨w, ws⟩
      · exact absurd h (splitOn_ne_nil c r)
      · rw [h] at ih
        show joinWith c ([] :: w :: ws) = c :: r
        show [] ++ c :: joinWith c (w :: ws) = c :: r
        simp [ih]
    · rcases h : splitOn sep r with _ | ⟨w, ws⟩
      · exact absurd h (splitOn_ne_nil sep r)
      · rw [h] at ih
        rcases ws with _ | ⟨w2, ws2⟩
        · show (c :: w : List Char) = c :: r
          simpa [joinWith] using ih
        · show (c :: w) ++ sep :: joinWith sep (w2 :: ws2) = c :: r
          simpa [joinWith] using ih

/-- Helper: no piece produced by `splitOn` contains the separator. -/
theorem splitOn_pieces_no_sep (sep : Char) (l : List Char) :
    ∀ w ∈ splitOn sep l, sep ∉ w := by
  induction l with
  | nil =>
    intro w hw
    simp [splitOn] at hw
    simp [hw]
  | cons c r ih =>
    intro w hw
    simp only [splitOn] at hw
    split_ifs at hw with hc
    · rw [List.mem_cons] at hw
      rcases hw with hw | hw
      · simp [hw]
      · exact ih w hw
    · rcases h : splitOn sep r with _ | ⟨w1, ws⟩
      · exact absurd h (splitOn_ne_nil sep r)
      · rw [h, List.mem_cons] at hw
        rcases hw with hw | hw
        · subst hw
          intro hmem
          rcases List.mem_cons.mp hmem with h1 | h1
          · exact hc h1.symm
          · exact ih w1 (h ▸ List.mem_cons_self w1 ws) h1
        · exact ih w (h ▸ List.mem_cons_of_mem w1 hw)

/-- Helper: the number of pieces is the separator count plus one. -/
theorem splitOn_length (sep : Char) (l : List Char) :
    (splitOn sep l).length = l.count sep + 1 := by
  induction l with
  | nil => simp [splitOn]
  | cons c r ih =>
    simp only [splitOn]
    split_ifs with hc
    · subst hc
      simp [List.count_cons, ih]
    · rcases h : splitOn sep r with _ | ⟨w, ws⟩
      · exact absurd h (splitOn_ne_nil sep r)
      · rw [h] at ih
        simp only [List.length_cons] at ih ⊢
        rw [List.count_cons]
        have hne : ¬(sep = c) := fun he => hc he.symm
        simp [hne, ih, hc]

/-- Helper: every character of a piece of `splitOn` occurs in the input. -/
theorem splitOn_pieces_subset (sep : Char) (l : List Char) :
    ∀ w ∈ splitOn sep l, ∀ c ∈ w, c ∈ l := by
  induction l with
  | nil =>
    intro w hw
    simp [splitOn] at hw
    simp [hw]
  | cons a r ih =>
    intro w hw c hc
    simp only [splitOn] at hw
    split_ifs at hw with ha
    · rw [List.mem_cons] at hw
      rcases hw with hw | hw
      · simp [hw] at hc
      · exact List.mem_cons_of_mem a (ih w hw c hc)
    · rcases h : splitOn sep r with _ | ⟨w1, ws⟩
      · exact absurd h (splitOn_ne_nil sep r)
      · rw [h, List.mem_cons] at hw
        rcases hw with hw | hw
        · subst hw
          rcases List.mem_cons.mp hc with h1 | h1
          · simp [h1]
          · exact List.mem_cons_of_mem a
              (ih w1 (h ▸ List.mem_cons_self w1 ws) c h1)
        · exact List.mem_cons_of_mem a
            (ih w (h ▸ List.mem_cons_of_mem w1 hw) c hc)

/-- Helper: joining pieces that contain no separator uses exactly
`pieces - 1` separators. -/
theorem joinWith_count (sep : Char) (ws : List (List Char))
    (h : ∀ w ∈ ws, sep ∉ w) :
    (joinWith sep ws).count sep + 1 = max ws.length 1 := by
  induction ws with
  | nil => simp [joinWith]
  | cons w ws2 ih =>
    rcases ws2 with _ | ⟨w2, ws3⟩
    · show (joinWith sep [w]).count sep + 1 = _
      have : (w.count sep) = 0 :=
        List.count_eq_zero.mpr (h w (List.mem_cons_self w []))
      simp [joinWith, this]
    · show ((w ++ sep :: joinWith sep (w2 :: ws3)).count sep) + 1 = _
      have hw : (w.count sep) = 0 :=
        List.count_eq_zero.mpr (h w (List.mem_cons_self w _))
      have ih2 := ih (fun u hu => h u (List.mem_cons_of_mem w hu))
      rw [List.count_append, List.count_cons_self, hw]
      simp only [List.length_cons] at ih2 ⊢
      omega

/-- Helper: every character of a joined string is a separator or comes from
one of the pieces. -/
theorem joinWith_mem (sep : Char) (ws : List (List Char)) (c : Char)
    (h : c ∈ joinWith sep ws) : c = sep ∨ ∃ w ∈ ws, c ∈ w := by
  induction ws with
  | nil => simp [joinWith] at h
  | cons w ws2 ih =>
    rcases ws2 with _ | ⟨w2, ws3⟩
    · exact Or.inr ⟨w, List.mem_cons_self w [], h⟩
    · have h2 : c ∈ w ++ sep :: joinWith sep (w2 :: ws3) := h
      rw [List.mem_append, List.mem_cons] at h2
      rcases h2 with h2 | h2 | h2
      · exact Or.inr ⟨w, List.mem_cons_self w _, h2⟩
      · exact Or.inl h2
      · rcases ih h2 with h3 | ⟨u, hu, hcu⟩
        · exact Or.inl h3
        · exact Or.inr ⟨u, List.mem_cons_of_mem w hu, hcu⟩

/-- Helper: the comma-to-space map is the identity on comma-free strings. -/
theorem commaMap_of_no_comma (l : List Char) (h : ',' ∉ l) :
    l.map (fun c => if c = ',' then ' ' else c) = l := by
  induction l with
  | nil => rfl
  | cons a r ih =>
    have ha : a ≠ ',' := fun he => h (he ▸ List.mem_cons_self a r)
    simp only [List.map_cons, if_neg ha]
    rw [ih (fun hm => h (List.mem_cons_of_mem a hm))]

/-- Helper: the colon-space substitution is the identity on colon-free
strings. -/
theorem colonSub_of_no_colon (l : List Char) (h : ':' ∉ l) :
    colonSub l = l := by
  induction l with
  | nil => rfl
  | cons a r ih =>
    rcases r with _ | ⟨b, r2⟩
    · rfl
    · have ha : ¬(a = ':' ∧ b = ' ') := by
        intro hab
        exact h (hab.1 ▸ List.mem_cons_self a (b :: r2))
      show colonSub (a :: b :: r2) = a :: b :: r2
      simp only [colonSub, if_neg ha]
      rw [ih (fun hm => h (List.mem_cons_of_mem a hm))]

/-- Helper: the fuel-indexed ".pdf" stripper returns a sublist of its
input. -/
theorem stripPdfFuel_sublist (n : Nat) : ∀ l : List Char,
    List.Sublist (stripPdfFuel n l) l := by
  induction n with
  | zero => intro l; exact List.Sublist.refl l
  | succ n ih =>
    intro l
    show List.Sublist (if ['.', 'p', 'd', 'f'] <:+ l then
      stripPdfFuel n (l.take (l.length - 4)) else l) l
    split_ifs with h
    · exact (ih (l.take (l.length - 4))).trans (List.take_sublist _ l)
    · exact List.Sublist.refl l

/-- Helper: with enough fuel the stripped string no longer ends in
".pdf". -/
theorem stripPdfFuel_no_pdf (n : Nat) : ∀ l : List Char, l.length ≤ n →
    ¬ (['.', 'p', 'd', 'f'] <:+ stripPdfFuel n l) := by
  induction n with
  | zero =>
    intro l hl
    have : l = [] := List.length_eq_zero.mp (Nat.le_zero.mp hl)
    subst this
    intro hsuf
    have h1 := hsuf.length_le
    have h2 : stripPdfFuel 0 [] = [] := rfl
    rw [h2] at h1
    simp at h1
  | succ n ih =>
    intro l hl
    show ¬ (['.', 'p', 'd', 'f'] <:+ (if ['.', 'p', 'd', 'f'] <:+ l then
      stripPdfFuel n (l.take (l.length - 4)) else l))
    split_ifs with h
    · refine ih _ ?_
      have h4 : 4 ≤ l.length := by simpa using h.length_le
      simp only [List.length_take]
      omega
    · exact h

/-- Helper: the stripper is the identity when the string does not end in
".pdf". -/
theorem stripPdfFuel_of_no_pdf (n : Nat) (l : List Char)
    (h : ¬ (['.', 'p', 'd', 'f'] <:+ l)) : stripPdfFuel n l = l := by
  cases n with
  | zero => rfl
  | succ n =>
    show (if ['.', 'p', 'd', 'f'] <:+ l then _ else l) = l
    rw [if_neg h]

/-- Helper: `stripPdfCore` is a sublist of its input. -/
theorem stripPdfCore_sublist (l : List Char) :
    List.Sublist (stripPdfCore l) l :=
  stripPdfFuel_sublist l.length l

/-- Helper: `stripPdfCore` output never ends in ".pdf". -/
theorem stripPdfCore_no_pdf (l : List Char) :
    ¬ (['.', 'p', 'd', 'f'] <:+ stripPdfCore l) :=
  stripPdfFuel_no_pdf l.length l (Nat.le_refl _)

/-- Helper: `stripPdfCore` is the identity when the input does not end in
".pdf". -/
theorem stripPdfCore_of_no_pdf (l : List Char)
    (h : ¬ (['.', 'p', 'd', 'f'] <:+ l)) : stripPdfCore l = l :=
  stripPdfFuel_of_no_pdf l.length l h

/-- Helper: unfolding equation of `collapseWs` on two-or-more-element
lists. -/
theorem collapseWs_cons2 (a b : Char) (r : List Char) :
    collapseWs (a :: b :: r) =
      if spTab a then
        (if spTab b then collapseWs (b :: r) else ' ' :: collapseWs (b :: r))
      else a :: collapseWs (b :: r) := by
  rfl

/-- Helper: every character of the collapsed string is a space or comes
from the input. -/
theorem collapseWs_mem (l : List Char) :
    ∀ c ∈ collapseWs l, c ∈ l ∨ c = ' ' := by
  induction l with
  | nil => intro c hc; simp [collapseWs] at hc
  | cons a t ih =>
    intro c hc
    rcases t with _ | ⟨b, r⟩
    · simp only [collapseWs] at hc
      split_ifs at hc with h
      · simp at hc
        exact Or.inr hc
      · simp at hc
        exact Or.inl (by simp [hc])
    · rw [collapseWs_cons2] at hc
      split_ifs at hc with h1 h2
      · rcases ih c hc with h | h
        · exact Or.inl (List.mem_cons_of_mem a h)
        · exact Or.inr h
      · rcases List.mem_cons.mp hc with h | h
        · exact Or.inr h
        · rcases ih c h with h3 | h3
          · exact Or.inl (List.mem_cons_of_mem a h3)
          · exact Or.inr h3
      · rcases List.mem_cons.mp hc with h | h
        · exact Or.inl (h ▸ List.mem_cons_self a (b :: r))
        · rcases ih c h with h3 | h3
          · exact Or.inl (List.mem_cons_of_mem a h3)
          · exact Or.inr h3

/-- Helper: collapsing never lengthens the string. -/
theorem collapseWs_length_le (l : List Char) :
    (collapseWs l).length ≤ l.length := by
  induction l with
  | nil => simp [collapseWs]
  | cons a t ih =>
    rcases t with _ | ⟨b, r⟩
    · simp only [collapseWs]
      split_ifs <;> simp
    · rw [collapseWs_cons2]
      split_ifs with h1 h2
      · simp only [List.length_cons] at ih ⊢
        omega
      · simp only [List.length_cons] at ih ⊢
        omega
      · simp only [List.length_cons] at ih ⊢
        omega

/-- Helper: on tab-free input, collapsing does not increase the number of
spaces. -/
theorem collapseWs_count_le (l : List Char) (h : '\t' ∉ l) :
    (collapseWs l).count ' ' ≤ l.count ' ' := by
  induction l with
  | nil => simp [collapseWs]
  | cons a t ih =>
    have hta : a ≠ '\t' := fun he => h (he ▸ List.mem_cons_self a t)
    have ht : '\t' ∉ t := fun hm => h (List.mem_cons_of_mem a hm)
    rcases t with _ | ⟨b, r⟩
    · simp only [collapseWs]
      split_ifs with hsp
      · have ha : a = ' ' := by
          rcases Bool.or_eq_true _ _ |>.mp hsp with h1 | h1
          · exact of_decide_eq_true h1
          · exact absurd (of_decide_eq_true h1) hta
        simp [ha]
      · have ha : a ≠ ' ' := by
          intro he
          exact hsp (by simp [spTab, he])
        simp [List.count_cons, ha]
    · rw [collapseWs_cons2]
      split_ifs with h1 h2
      · have ha : a = ' ' := by
          rcases Bool.or_eq_true _ _ |>.mp h1 with hx | hx
          · exact of_decide_eq_true hx
          · exact absurd (of_decide_eq_true hx) hta
        calc (collapseWs (b :: r)).count ' ' ≤ (b :: r).count ' ' := ih ht
          _ ≤ ((a :: b :: r) : List Char).count ' ' := by
              simp [List.count_cons]
      · have ha : a = ' ' := by
          rcases Bool.or_eq_true _ _ |>.mp h1 with hx | hx
          · exact of_decide_eq_true hx
          · exact absurd (of_decide_eq_true hx) hta
        have := ih ht
        simp only [List.count_cons, ha] at this ⊢
        simp at this ⊢
        omega
      · have := ih ht
        simp only [List.count_cons] at this ⊢
        omega

/-- Helper: the collapsed string never contains a tab. -/
theorem collapseWs_no_tab (l : List Char) : '\t' ∉ collapseWs l := by
  induction l with
  | nil => simp [collapseWs]
  | cons a t ih =>
    rcases t with _ | ⟨b, r⟩
    · simp only [collapseWs]
      split_ifs with h
      · simp
      · intro hm
        simp at hm
        exact h (by rw [← hm]; decide)
    · rw [collapseWs_cons2]
      split_ifs with h1 h2
      · exact ih
      · intro hm
        rcases List.mem_cons.mp hm with h | h
        · simp at h
        · exact ih h
      · intro hm
        rcases List.mem_cons.mp hm with h | h
        · exact h1 (by rw [← h]; decide)
        · exact ih h

/-- Helper: collapsing a string whose head is not a space/tab keeps that
head. -/
theorem collapseWs_head_of_not (b : Char) (r : List Char)
    (h : spTab b = false) : ∃ t, collapseWs (b :: r) = b :: t := by
  rcases r with _ | ⟨c, r2⟩
  · refine ⟨[], ?_⟩
    simp only [collapseWs]
    rw [if_neg (by simp [h])]
  · rw [collapseWs_cons2, if_neg (by simp [h])]
    exact ⟨collapseWs (c :: r2), rfl⟩

/-- Helper: the collapsed string has no two adjacent space/tab
characters. -/
theorem collapseWs_noAdj (l : List Char) :
    List.Chain' (fun a b => ¬(spTab a = true ∧ spTab b = true))
      (collapseWs l) := by
  induction l with
  | nil => simp [collapseWs]
  | cons a t ih =>
    rcases t with _ | ⟨b, r⟩
    · simp only [collapseWs]
      split_ifs <;> simp
    · rw [collapseWs_cons2]
      split_ifs with h1 h2
      · exact ih
      · refine List.Chain'.cons' ih ?_
        intro y hy
        rcases hb : spTab b with _ | _
        · obtain ⟨t2, ht2⟩ := collapseWs_head_of_not b r hb
          rw [ht2] at hy
          simp at hy
          intro hcontra
          rw [← hy] at hcontra
          rw [hb] at hcontra
          exact Bool.false_ne_true hcontra.2
        · exact absurd hb (by simp [h2])
      · refine List.Chain'.cons' ih ?_
        intro y hy
        intro hcontra
        rw [hcontra.1] at h1
        exact h1 rfl

/-- Helper: collapsing a tab-free string with no adjacent space/tab pairs
is the identity. -/
theorem collapseWs_of_good (l : List Char) (htab : ∀ c ∈ l, c ≠ '\t')
    (hadj : List.Chain' (fun a b => ¬(spTab a = true ∧ spTab b = true)) l) :
    collapseWs l = l := by
  induction l with
  | nil => rfl
  | cons a t ih =>
    rcases t with _ | ⟨b, r⟩
    · simp only [collapseWs]
      split_ifs with h
      · have ha : a = ' ' := by
          rcases Bool.or_eq_true _ _ |>.mp h with h1 | h1
          · exact of_decide_eq_true h1
          · exact absurd (of_decide_eq_true h1)
              (htab a (List.mem_cons_self a []))
        rw [ha]
      · rfl
    · rw [collapseWs_cons2]
      have hP := List.chain'_cons.mp hadj
      have htab2 : ∀ c ∈ b :: r, c ≠ '\t' :=
        fun c hc => htab c (List.mem_cons_of_mem a hc)
      have ihr := ih htab2 hP.2
      split_ifs with h1 h2
      · exact absurd ⟨h1, h2⟩ hP.1
      · have ha : a = ' ' := by
          rcases Bool.or_eq_true _ _ |>.mp h1 with hx | hx
          · exact of_decide_eq_true hx
          · exact absurd (of_decide_eq_true hx)
              (htab a (List.mem_cons_self a _))
        rw [ihr, ha]
      · rw [ihr]

/-- Helper: when the head of the input is a space or tab, the collapsed
string contains a space. -/
theorem collapseWs_sp_mem (a : Char) (r : List Char) (h : spTab a = true) :
    ' ' ∈ collapseWs (a :: r) := by
  induction r generalizing a with
  | nil =>
    simp only [collapseWs]
    rw [if_pos h]
    simp
  | cons b r2 ih =>
    rw [collapseWs_cons2, if_pos h]
    split_ifs with h2
    · exact ih b h2
    · simp

/-- Helper: a collapsed string free of spaces and tabs equals the
input. -/
theorem collapseWs_eq_self_of_no_sptab (l : List Char)
    (h : ∀ c ∈ collapseWs l, spTab c = false) : collapseWs l = l := by
  induction l with
  | nil => rfl
  | cons a t ih =>
    rcases ha : spTab a with _ | _
    · rcases t with _ | ⟨b, r⟩
      · simp only [collapseWs]
        rw [if_neg (by simp [ha])]
      · rw [collapseWs_cons2, if_neg (by simp [ha])]
        rw [collapseWs_cons2, if_neg (by simp [ha])] at h
        have h2 : ∀ c ∈ collapseWs (b :: r), spTab c = false :=
          fun c hc => h c (List.mem_cons_of_mem a hc)
        rw [ih h2]
    · exfalso
      have hsp : ' ' ∈ collapseWs (a :: t) := collapseWs_sp_mem a t ha
      have := h ' ' hsp
      simp [spTab] at this

/-- Helper: if the collapsed string ends in ".pdf" then so did the
input. -/
theorem collapseWs_pdf (l : List Char)
    (h : ['.', 'p', 'd', 'f'] <:+ collapseWs l) :
    ['.', 'p', 'd', 'f'] <:+ l := by
  induction l with
  | nil =>
    exfalso
    have := h.length_le
    simp [collapseWs] at this
  | cons a t ih =>
    rcases t with _ | ⟨b, r⟩
    · exfalso
      have hle := h.length_le
      simp only [collapseWs] at hle
      split_ifs at hle <;> simp at hle
    · rw [collapseWs_cons2] at h
      split_ifs at h with h1 h2
      · exact (ih h).trans (List.suffix_cons a (b :: r))
      · rcases List.suffix_cons_iff.mp h with hcase | hcase
        · exfalso
          have hh := congrArg (fun m => m.head?) hcase
          simp at hh
        · exact (ih hcase).trans (List.suffix_cons a (b :: r))
      · rcases List.suffix_cons_iff.mp h with hcase | hcase
        · have ha : a = '.' := by
            have := congrArg (fun m => m.head?) hcase
            simpa using this.symm
          have htail : collapseWs (b :: r) = ['p', 'd', 'f'] := by
            have := congrArg List.tail hcase
            simpa using this.symm
          have hbr : (b :: r) = ['p', 'd', 'f'] := by
            rw [← htail]
            refine (collapseWs_eq_self_of_no_sptab (b :: r) ?_).symm
            intro c hc
            rw [htail] at hc
            rcases List.mem_cons.mp hc with hx | hx
            · simp [hx, spTab]
            · rcases List.mem_cons.mp hx with hy | hy
              · simp [hy, spTab]
              · rcases List.mem_cons.mp hy with hz | hz
                · simp [hz, spTab]
                · simp at hz
          rw [ha, hbr]
        · exact (ih hcase).trans (List.suffix_cons a (b :: r))

/-- Helper: the optional last element of a list belongs to it. -/
theorem mem_of_getLast_opt (l : List Char) (c : Char)
    (h : l.getLast? = some c) : c ∈ l := by
  induction l with
  | nil => simp at h
  | cons a t ih =>
    rcases t with _ | ⟨b, r⟩
    · simp at h
      simp [h]
    · rw [List.getLast?_cons_cons] at h
      exact List.mem_cons_of_mem a (ih h)

/-- Helper: characters on the sanitizer allow-list are not tabs, commas,
colons or newlines. -/
theorem validChar_not (c : Char) (h : validChar c = true) :
    c ≠ '\t' ∧ c ≠ ',' ∧ c ≠ ':' ∧ c ≠ '\n' := by
  refine ⟨?_, ?_, ?_, ?_⟩ <;> intro he <;> rw [he] at h <;>
    exact absurd h (by decide)

/-- Helper: `sanitize` fixes every string that is entirely allow-listed,
has at most 19 spaces, at most 200 characters, no adjacent space/tab pair,
and no trailing ".pdf" — provided the transliteration fixes allow-listed
strings. -/
theorem sanitize_fixpoint (f : List Char → List Char) (l : List Char)
    (hf : ∀ m, (∀ c ∈ m, validChar c = true) → f m = m)
    (hval : ∀ c ∈ l, validChar c = true)
    (hcount : l.count ' ' + 1 ≤ 20)
    (hlen : l.length ≤ 200)
    (hadj : List.Chain' (fun a b => ¬(spTab a = true ∧ spTab b = true)) l)
    (hpdf : ¬ (['.', 'p', 'd', 'f'] <:+ l)) :
    sanitize f l = l := by
  have hsplit : (splitOn ' ' l).take 20 = splitOn ' ' l := by
    apply List.take_of_length_le
    rw [splitOn_length]
    omega
  have hs1 : joinWith ' ' ((splitOn ' ' l).take 20) = l := by
    rw [hsplit, joinWith_splitOn]
  have hs2 : (if l.length > 200 then l.take 200 else l) = l := by
    rw [if_neg (by omega)]
  have hs3 : f l = l := hf l hval
  have hs4 : l.map (fun c => if c = ',' then ' ' else c) = l :=
    commaMap_of_no_comma l (fun hm => (validChar_not ',' (hval ',' hm)).2.1 rfl)
  have hs5 : colonSub l = l :=
    colonSub_of_no_colon l (fun hm => (validChar_not ':' (hval ':' hm)).2.2.1 rfl)
  have hnl : ¬ (l.getLast? = some '\n') := by
    intro hg
    exact (validChar_not '\n' (hval '\n' (mem_of_getLast_opt l '\n' hg))).2.2.2 rfl
  have hs6 : stripPdfEnd l = l := by
    unfold stripPdfEnd
    rw [if_neg hnl]
    exact stripPdfCore_of_no_pdf l hpdf
  have hs7 : collapseWs l = l :=
    collapseWs_of_good l (fun c hc => (validChar_not c (hval c hc)).1) hadj
  have hs8 : l.filter validChar = l :=
    List.filter_eq_self.mpr (fun c hc => hval c hc)
  simp only [sanitize]
  rw [hs1, hs2, hs3, hs4, hs5, hs6, hs7, hs8]

/-- Helper: on an entirely allow-listed input (as every first-pass output
is), the sanitizer's output is allow-listed, has at most 19 spaces, at most
200 characters, no adjacent space/tab pair, and no trailing ".pdf" — i.e.
it lies in the fixpoint region of `sanitize_fixpoint`. -/
theorem sanitize_good (f : List Char → List Char) (z : List Char)
    (hf : ∀ m, (∀ c ∈ m, validChar c = true) → f m = m)
    (hz : ∀ c ∈ z, validChar c = true) :
    (∀ c ∈ sanitize f z, validChar c = true) ∧
    (sanitize f z).count ' ' + 1 ≤ 20 ∧
    (sanitize f z).length ≤ 200 ∧
    List.Chain' (fun a b => ¬(spTab a = true ∧ spTab b = true)) (sanitize f z) ∧
    ¬ (['.', 'p', 'd', 'f'] <:+ sanitize f z) := by
  set s1 := joinWith ' ' ((splitOn ' ' z).take 20) with hs1def
  have hv1 : ∀ c ∈ s1, validChar c = true := by
    intro c hc
    rcases joinWith_mem ' ' _ c hc with h | ⟨w, hw, hcw⟩
    · rw [h]; decide
    · exact hz c (splitOn_pieces_subset ' ' z w (List.take_subset _ _ hw) c hcw)
  have hc1 : s1.count ' ' + 1 ≤ 20 := by
    have hjc := joinWith_count ' ' ((splitOn ' ' z).take 20)
      (fun w hw => splitOn_pieces_no_sep ' ' z w (List.take_subset _ _ hw))
    rw [← hs1def] at hjc
    have hlen20 : ((splitOn ' ' z).take 20).length ≤ 20 := by
      simp [List.length_take]
    rw [hjc]
    exact Nat.max_le.mpr ⟨hlen20, by omega⟩
  set s2 := if s1.length > 200 then s1.take 200 else s1 with hs2def
  have hsub2 : List.Sublist s2 s1 := by
    rw [hs2def]
    split_ifs
    · exact List.take_sublist _ _
    · exact List.Sublist.refl _
  have hv2 : ∀ c ∈ s2, validChar c = true := fun c hc => hv1 c (hsub2.subset hc)
  have hc2 : s2.count ' ' + 1 ≤ 20 :=
    le_trans (Nat.add_le_add_right (hsub2.count_le ' ') 1) hc1
  have hl2 : s2.length ≤ 200 := by
    rw [hs2def]
    split_ifs with h
    · simp [List.length_take]
    · omega
  have hs3 : f s2 = s2 := hf s2 hv2
  have hs4 : s2.map (fun c => if c = ',' then ' ' else c) = s2 :=
    commaMap_of_no_comma s2 (fun hm => (validChar_not ',' (hv2 ',' hm)).2.1 rfl)
  have hs5 : colonSub s2 = s2 :=
    colonSub_of_no_colon s2 (fun hm => (validChar_not ':' (hv2 ':' hm)).2.2.1 rfl)
  have hnl : ¬ (s2.getLast? = some '\n') := fun hg =>
    (validChar_not '\n' (hv2 '\n' (mem_of_getLast_opt s2 '\n' hg))).2.2.2 rfl
  have hs6 : stripPdfEnd s2 = stripPdfCore s2 := by
    unfold stripPdfEnd
    rw [if_neg hnl]
  have hred : sanitize f z = (collapseWs (stripPdfCore s2)).filter validChar := by
    simp only [sanitize]
    rw [← hs1def, ← hs2def, hs3, hs4, hs5, hs6]
  have hsub6 : List.Sublist (stripPdfCore s2) s2 := stripPdfCore_sublist s2
  have hv6 : ∀ c ∈ stripPdfCore s2, validChar c = true :=
    fun c hc => hv2 c (hsub6.subset hc)
  have hc6 : (stripPdfCore s2).count ' ' + 1 ≤ 20 :=
    le_trans (Nat.add_le_add_right (hsub6.count_le ' ') 1) hc2
  have hl6 : (stripPdfCore s2).length ≤ 200 := le_trans hsub6.length_le hl2
  have hpdf6 : ¬ (['.', 'p', 'd', 'f'] <:+ stripPdfCore s2) :=
    stripPdfCore_no_pdf s2
  have hv7 : ∀ c ∈ collapseWs (stripPdfCore s2), validChar c = true := by
    intro c hc
    rcases collapseWs_mem _ c hc with h | h
    · exact hv6 c h
    · rw [h]; decide
  have hfin : sanitize f z = collapseWs (stripPdfCore s2) := by
    rw [hred]
    exact List.filter_eq_self.mpr (fun c hc => hv7 c hc)
  refine ⟨?_, ?_, ?_, ?_, ?_⟩
  · rw [hfin]
    exact hv7
  · rw [hfin]
    have := collapseWs_count_le (stripPdfCore s2)
      (fun hm => (validChar_not '\t' (hv6 '\t' hm)).1 rfl)
    omega
  · rw [hfin]
    exact le_trans (collapseWs_length_le _) hl6
  · rw [hfin]
    exact collapseWs_noAdj _
  · rw [hfin]
    exact fun h => hpdf6 (collapseWs_pdf _ h)

/-- C2 (amended): `sanitize` stabilises after one application: a second
application can still change the output (dropping a disallowed character
can create a double space, which only the next pass collapses; similarly a
stripped character can expose a trailing ".pdf" or reveal extra words),
but from the second application onwards the result is fixed:
`sanitize(sanitize(sanitize(x))) = sanitize(sanitize(x))` for every input
x, for any transliteration `f` that is the identity on allow-listed
strings (as the source's `unidecode` round-trip is). -/
theorem c2_sanitize_stabilizes (f : List Char → List Char)
    (hf : ∀ m, (∀ c ∈ m, validChar c = true) → f m = m) (x : List Char) :
    sanitize f (sanitize f (sanitize f x)) = sanitize f (sanitize f x) := by
  have hv : ∀ c ∈ sanitize f x, validChar c = true := by
    intro c hc
    simp only [sanitize] at hc
    exact List.of_mem_filter hc
  obtain ⟨g1, g2, g3, g4, g5⟩ := sanitize_good f (sanitize f x) hf hv
  exact sanitize_fixpoint f (sanitize f (sanitize f x)) hf g1 g2 g3 g4 g5

/-- C2 witness: the stabilisation theorem applied at the identity
transliteration and the counterexample input "a @ b": the third
application changes nothing. -/
theorem c2_witness :
    sanitize (fun m => m)
        (sanitize (fun m => m) (sanitize (fun m => m) (String.toList "a @ b"))) =
      sanitize (fun m => m) (sanitize (fun m => m) (String.toList "a @ b")) :=
  c2_sanitize_stabilizes (fun m => m) (fun _ _ => rfl) (String.toList "a @ b")
